import Mathlib

/-!
Shallow embedding of the BeancountPilot classification core
(`src/core/classifier.py`, `src/core/rule_engine.py`, `src/core/feedback.py`,
`src/db/repositories.py`, `src/ai/openai_provider.py`) together with proofs
about the rule-matching, classification, persistence and feedback-mining
behaviour described in the design document.

Python strings are embedded as `List Char`; Python floats used for
confidences are embedded as `ℚ` (only comparison, division and literal
values occur, so no floating-point rounding is involved); database tables
are embedded as in-memory lists in insertion (rowid) order; the random
UUIDs used for primary keys are embedded as a `Nat` counter, and the random
hexadecimal name suffix of `auto_generate_rule_from_feedback` is passed in
as an explicit argument.
-/

namespace BeancountPilot

/-- Python strings are embedded as lists of characters. -/
abbrev Str := List Char

/-- String literal "user" (rule provenance tag). -/
def userS : Str := "user".toList

/-- String literal "auto" (rule provenance tag). -/
def autoS : Str := "auto".toList

/-- String literal "ai" (classification source tag). -/
def aiS : Str := "ai".toList

/-- String literal "rule" (classification source tag). -/
def ruleS : Str := "rule".toList

/-- String literal "accept" (feedback action). -/
def acceptS : Str := "accept".toList

/-- String literal "reject" (feedback action). -/
def rejectS : Str := "reject".toList

/-- String literal "modify" (feedback action). -/
def modifyS : Str := "modify".toList

/-- A rule condition value is either a single pattern string or a list of
pattern strings, mirroring the JSON value stored in `Rule.conditions`
(`match_transaction` wraps a bare string into a one-element list). -/
inductive CondVal where
  | str (s : Str)
  | many (ss : List Str)
deriving DecidableEq

/-- Normalisation of a condition value to a list of patterns, mirroring
`if isinstance(cond, str): cond = [cond]` in `RuleRepository.match_transaction`. -/
def CondVal.pats : CondVal → List Str
  | .str s => [s]
  | .many ss => ss

/-- The conditions mapping of a rule.  Its keys range over
{peer, item, category} (the only keys `match_transaction` inspects);
an absent key is `none`.  The empty map is `⟨none, none, none⟩`. -/
structure Conditions where
  peer : Option CondVal
  item : Option CondVal
  category : Option CondVal
deriving DecidableEq

/-- The empty conditions mapping `{}`. -/
def Conditions.empty : Conditions := ⟨none, none, none⟩

/-- A stored rule (table `rules`).  The random UUID primary key and the
creation/update timestamps play no role in any modelled behaviour and are
omitted. -/
structure Rule where
  name : Str
  conditions : Conditions
  account : Str
  confidence : ℚ
  source : Str
deriving DecidableEq

/-- A transaction, restricted to the fields the classification core reads
(`id`, `peer`, `item`, `category`). -/
structure Tx where
  id : Str
  peer : Str
  item : Str
  category : Str
deriving DecidableEq

/-! ## Rule matching (`RuleRepository.match_transaction`) -/

/-- Does one pattern list hold for a free-text field: some pattern is a
(case-sensitive) substring of the field, mirroring
`any(p in peer for p in peer_conditions)`. -/
def patsSubstrMatch (pats : List Str) (field : Str) : Bool :=
  pats.any (fun p => decide (p <:+: field))

/-- Decision of `match_transaction` for a single rule: every condition key
present in the rule's conditions must hold; `peer`/`item` use substring
semantics, `category` uses exact membership (`category in category_conditions`). -/
def ruleMatches (r : Rule) (peer item category : Str) : Bool :=
  (match r.conditions.peer with
    | none => true
    | some v => patsSubstrMatch v.pats peer) &&
  (match r.conditions.item with
    | none => true
    | some v => patsSubstrMatch v.pats item) &&
  (match r.conditions.category with
    | none => true
    | some v => v.pats.contains category)

/-- Pagination of `list_all(db, skip, limit)`:
`query.offset(skip).limit(limit).all()` over rowid order. -/
def listAll {α : Type} (l : List α) (skip limit : Nat) : List α :=
  (l.drop skip).take limit

/-- `RuleRepository.match_transaction`: fetch the stored rules through
`list_all(db)` — whose defaults are `skip=0, limit=100`, so only the first
100 stored rules are ever consulted — and collect those whose conditions
all hold for the given transaction fields. -/
def matchTransaction (rules : List Rule) (peer item category : Str) : List Rule :=
  (listAll rules 0 100).filter (fun r => ruleMatches r peer item category)

/-! ## Python `max(xs, key=f)` -/

/-- Python's `max(xs, key=f)`: fold keeping the current maximum, replacing
it only on a strictly greater key, so the first maximal element wins. -/
def pyMaxBy {α β : Type} [LinearOrder β] (f : α → β) : List α → Option α
  | [] => none
  | x :: xs => some (xs.foldl (fun b y => if f b < f y then y else b) x)

theorem pyMaxBy_foldl_cases {α β : Type} [LinearOrder β] (f : α → β) :
    ∀ (xs : List α) (b : α),
      (xs.foldl (fun b y => if f b < f y then y else b) b = b ∨
        xs.foldl (fun b y => if f b < f y then y else b) b ∈ xs) ∧
      f b ≤ f (xs.foldl (fun b y => if f b < f y then y else b) b) ∧
      ∀ y ∈ xs, f y ≤ f (xs.foldl (fun b y => if f b < f y then y else b) b) := by
  intro xs
  induction xs with
  | nil => intro b; refine ⟨Or.inl rfl, le_refl _, ?_⟩; intro y hy; cases hy
  | cons x xs ih =>
    intro b
    simp only [List.foldl_cons]
    by_cases hbx : f b < f x
    · rw [if_pos hbx]
      rcases ih x with ⟨hmem, hle, hall⟩
      refine ⟨?_, le_trans (le_of_lt hbx) hle, ?_⟩
      · rcases hmem with h | h
        · exact Or.inr (by rw [h]; exact List.mem_cons_self x xs)
        · exact Or.inr (List.mem_cons_of_mem _ h)
      · intro y hy
        rcases List.mem_cons.mp hy with rfl | hy
        · exact hle
        · exact hall y hy
    · rw [if_neg hbx]
      rcases ih b with ⟨hmem, hle, hall⟩
      refine ⟨?_, hle, ?_⟩
      · rcases hmem with h | h
        · exact Or.inl h
        · exact Or.inr (List.mem_cons_of_mem _ h)
      · intro y hy
        rcases List.mem_cons.mp hy with rfl | hy
        · exact le_trans (le_of_not_lt hbx) hle
        · exact hall y hy

theorem pyMaxBy_mem {α β : Type} [LinearOrder β] (f : α → β) {l : List α} {m : α}
    (h : pyMaxBy f l = some m) : m ∈ l := by
  cases l with
  | nil => simp [pyMaxBy] at h
  | cons x xs =>
    simp only [pyMaxBy, Option.some.injEq] at h
    rcases (pyMaxBy_foldl_cases f xs x).1 with h0 | h0
    · rw [← h, h0]; exact List.mem_cons_self _ _
    · rw [← h]; exact List.mem_cons_of_mem _ h0

theorem pyMaxBy_is_max {α β : Type} [LinearOrder β] (f : α → β) {l : List α} {m : α}
    (h : pyMaxBy f l = some m) : ∀ y ∈ l, f y ≤ f m := by
  cases l with
  | nil => simp [pyMaxBy] at h
  | cons x xs =>
    simp only [pyMaxBy, Option.some.injEq] at h
    intro y hy
    rcases List.mem_cons.mp hy with rfl | hy
    · rw [← h]; exact (pyMaxBy_foldl_cases f xs y).2.1
    · rw [← h]; exact (pyMaxBy_foldl_cases f xs x).2.2 y hy

theorem pyMaxBy_eq_none_iff {α β : Type} [LinearOrder β] (f : α → β) (l : List α) :
    pyMaxBy f l = none ↔ l = [] := by
  cases l <;> simp [pyMaxBy]

/-! ## Classification coordinator (`Classifier`) -/

/-- Result of an AI provider call: `{account, confidence, reasoning}`. -/
structure AiRes where
  account : Str
  confidence : ℚ
  reasoning : Str
deriving DecidableEq

/-- Result of `Classifier.classify_transaction`:
`{account, confidence, reasoning, source}`. -/
structure CRes where
  account : Str
  confidence : ℚ
  reasoning : Str
  source : Str
deriving DecidableEq

/-- One row of the `Classifier.classify_transactions` output: the code keeps
the originating transaction in each result dict alongside the
classification fields. -/
structure BatchRes where
  tx : Tx
  account : Str
  confidence : ℚ
  reasoning : Str
  source : Str
deriving DecidableEq

/-- The matched user rules for a transaction:
`[r for r in match_transaction(...) if r.source == "user"]`. -/
def userRulesFor (rules : List Rule) (tx : Tx) : List Rule :=
  (matchTransaction rules tx.peer tx.item tx.category).filter
    (fun r => r.source = userS)

/-- The user rule `classify_transaction` selects, if any:
`max(user_rules, key=lambda r: r.confidence)` on a non-empty list. -/
def userRuleFor (rules : List Rule) (tx : Tx) : Option Rule :=
  pyMaxBy (fun r => r.confidence) (userRulesFor rules tx)

/-- The reasoning string produced on a user-rule hit:
`f"Matched user rule: {rule.name}"`. -/
def matchedReason (r : Rule) : Str :=
  "Matched user rule: ".toList ++ r.name

/-- `Classifier.classify_transaction`: a user-rule hit short-circuits with
`source="rule"`; otherwise the AI provider's result is tagged `source="ai"`.
The provider call is passed in as the already-computed `ai` value, so a
rule hit provably ignores it. -/
def classifyTransaction (rules : List Rule) (ai : AiRes) (tx : Tx) : CRes :=
  match userRuleFor rules tx with
  | some r => ⟨r.account, r.confidence, matchedReason r, ruleS⟩
  | none => ⟨ai.account, ai.confidence, ai.reasoning, aiS⟩

/-- Phase-1 row of `classify_transactions`: either a completed rule-sourced
result dict, or the `{"transaction": tx, "source": "ai"}` placeholder. -/
inductive Pre where
  | ruled (row : BatchRes)
  | pending (tx : Tx)
deriving DecidableEq

/-- First phase of `classify_transactions`, applied to one transaction. -/
def phase1Step (rules : List Rule) (tx : Tx) : Pre :=
  match userRuleFor rules tx with
  | some r => .ruled ⟨tx, r.account, r.confidence, matchedReason r, ruleS⟩
  | none => .pending tx

/-- First phase of `classify_transactions` over the whole input list. -/
def phase1 (rules : List Rule) (txs : List Tx) : List Pre :=
  txs.map (phase1Step rules)

/-- The transaction carried by a placeholder row, if the row is one. -/
def Pre.pendingTx : Pre → Option Tx
  | .pending tx => some tx
  | .ruled _ => none

/-- The transactions handed to the AI batch call:
`[r["transaction"] for r in results if r["source"] == "ai"]`. -/
def aiTxs (ps : List Pre) : List Tx :=
  ps.filterMap Pre.pendingTx

/-- A finished AI-path output row: `results[i].update(account..., confidence...,
reasoning...)` on a placeholder whose `source` is already `"ai"`. -/
def mkAiRow (tx : Tx) (a : AiRes) : BatchRes :=
  ⟨tx, a.account, a.confidence, a.reasoning, aiS⟩

/-- The merge loop of `classify_transactions`: walk the phase-1 rows and
splice the AI batch results into the placeholder positions in order
(`ai_index` advances only on `"ai"` rows).  If the AI result list is too
short the code would fail with an index error; the embedding returns `none`
for that case. -/
def merge : List Pre → List AiRes → Option (List BatchRes)
  | [], _ => some []
  | .ruled row :: rest, ais => (merge rest ais).map (fun out => row :: out)
  | .pending tx :: rest, a :: ais => (merge rest ais).map (fun out => mkAiRow tx a :: out)
  | .pending _ :: _, [] => none

/-- `Classifier.classify_transactions`: phase 1 resolves user rules, the
pending transactions go to the provider's batch call (skipped when there
are none), and the results are merged back positionally.  The provider's
batch operation is a parameter `batch`. -/
def classifyTransactions (rules : List Rule) (batch : List Tx → List AiRes)
    (txs : List Tx) : Option (List BatchRes) :=
  let ps := phase1 rules txs
  let atxs := aiTxs ps
  let ais := if atxs.isEmpty then [] else batch atxs
  merge ps ais

/-- Number of AI placeholders among the first `i` phase-1 rows: the value of
`ai_index` when the merge loop reaches position `i`. -/
def numPendingBefore (ps : List Pre) (i : Nat) : Nat :=
  (aiTxs (ps.take i)).length

/-! ## AI provider error degradation (`OpenAIProvider`) -/

/-- Default account of the degraded result. -/
def miscAccountS : Str := "Expenses:Misc".toList

/-- Prefix of the degraded result's reasoning string. -/
def apiFailS : Str := "API call failed: ".toList

/-- `OpenAIProvider.classify`: the underlying API call (modelled as `call`,
which either returns a parsed result or fails with an error message) is
wrapped in `try/except`; on failure the default
`{"Expenses:Misc", 0.0, "API call failed: ..."}` result is returned. -/
def providerClassify (call : Tx → Except Str AiRes) (tx : Tx) : AiRes :=
  match call tx with
  | .ok r => r
  | .error e => ⟨miscAccountS, 0, apiFailS ++ e⟩

/-- `OpenAIProvider._classify_one_by_one`: classify each transaction
independently (`asyncio.gather` keeps the task order). -/
def classifyOneByOne (call : Tx → Except Str AiRes) (txs : List Tx) : List AiRes :=
  txs.map (providerClassify call)

/-- `OpenAIProvider.batch_classify`: for at most 10 transactions try the
single batch prompt (its API call and response parsing modelled as
`bcall`, which returns the parsed result list or fails); fall back to
`_classify_one_by_one` when the batch call raises or when the parsed
result count mismatches the request count; larger batches go one-by-one
directly. -/
def batchClassify (bcall : List Tx → Except Str (List AiRes))
    (call : Tx → Except Str AiRes) (txs : List Tx) : List AiRes :=
  if txs.length ≤ 10 then
    match bcall txs with
    | .ok results =>
      if results.length ≠ txs.length then classifyOneByOne call txs else results
    | .error _ => classifyOneByOne call txs
  else classifyOneByOne call txs

/-! ## Merge lemmas -/

theorem aiTxs_nil : aiTxs [] = [] := rfl

theorem aiTxs_cons_ruled (row : BatchRes) (ps : List Pre) :
    aiTxs (.ruled row :: ps) = aiTxs ps := rfl

theorem aiTxs_cons_pending (tx : Tx) (ps : List Pre) :
    aiTxs (.pending tx :: ps) = tx :: aiTxs ps := rfl

theorem merge_spec : ∀ (ps : List Pre) (ais : List AiRes),
    (aiTxs ps).length ≤ ais.length →
    ∃ out, merge ps ais = some out ∧ out.length = ps.length ∧
      (∀ i row, ps.get? i = some (.ruled row) → out.get? i = some row) ∧
      (∀ i tx, ps.get? i = some (.pending tx) →
        out.get? i = (ais.get? (numPendingBefore ps i)).map (mkAiRow tx)) := by
  intro ps
  induction ps with
  | nil =>
    intro ais _
    refine ⟨[], rfl, rfl, ?_, ?_⟩ <;> intro i x h <;> simp at h
  | cons p rest ih =>
    intro ais hlen
    cases p with
    | ruled row =>
      rw [aiTxs_cons_ruled] at hlen
      rcases ih ais hlen with ⟨out, hm, hl, hr, hp⟩
      refine ⟨row :: out, ?_, by simp [hl], ?_, ?_⟩
      · simp [merge, hm]
      · intro i r h
        cases i with
        | zero =>
          simp only [List.get?] at h ⊢
          cases h; rfl
        | succ i => exact hr i r h
      · intro i tx h
        cases i with
        | zero => simp only [List.get?] at h; cases h
        | succ i =>
          have : numPendingBefore (Pre.ruled row :: rest) (i + 1) =
              numPendingBefore rest i := by
            simp [numPendingBefore, List.take, aiTxs_cons_ruled]
          rw [this]
          exact hp i tx h
    | pending tx0 =>
      rw [aiTxs_cons_pending] at hlen
      cases ais with
      | nil => simp at hlen
      | cons a ais =>
        have hlen' : (aiTxs rest).length ≤ ais.length := by
          simpa using Nat.le_of_succ_le_succ hlen
        rcases ih ais hlen' with ⟨out, hm, hl, hr, hp⟩
        refine ⟨mkAiRow tx0 a :: out, ?_, by simp [hl], ?_, ?_⟩
        · simp [merge, hm]
        · intro i r h
          cases i with
          | zero => simp only [List.get?] at h; cases h
          | succ i => exact hr i r h
        · intro i tx h
          cases i with
          | zero =>
            simp only [List.get?] at h ⊢
            cases h
            simp [numPendingBefore, List.take, aiTxs_nil]
          | succ i =>
            have : numPendingBefore (Pre.pending tx0 :: rest) (i + 1) =
                numPendingBefore rest i + 1 := by
              simp [numPendingBefore, List.take, aiTxs_cons_pending]
            rw [this]
            exact hp i tx h

theorem aiTxs_get_pending : ∀ (ps : List Pre) (i : Nat) (tx : Tx),
    ps.get? i = some (.pending tx) →
    (aiTxs ps).get? (numPendingBefore ps i) = some tx := by
  intro ps
  induction ps with
  | nil => intro i tx h; simp at h
  | cons p rest ih =>
    intro i tx h
    cases p with
    | ruled row =>
      cases i with
      | zero => simp only [List.get?] at h; cases h
      | succ i =>
        have hk : numPendingBefore (Pre.ruled row :: rest) (i + 1) =
            numPendingBefore rest i := by
          simp [numPendingBefore, List.take, aiTxs_cons_ruled]
        rw [aiTxs_cons_ruled, hk]
        exact ih i tx h
    | pending tx0 =>
      cases i with
      | zero =>
        simp only [List.get?] at h
        cases h
        simp [aiTxs_cons_pending, numPendingBefore, List.take, aiTxs_nil]
      | succ i =>
        have hk : numPendingBefore (Pre.pending tx0 :: rest) (i + 1) =
            numPendingBefore rest i + 1 := by
          simp [numPendingBefore, List.take, aiTxs_cons_pending]
        rw [aiTxs_cons_pending, hk]
        simpa using ih i tx h

/-- Core specification of `classify_transactions`, shared by the
order-preservation and error-degradation results: under the provider
contract that the batch result count equals the batch request count, the
output exists, is aligned 1:1 with the input, rule-resolved rows carry the
selected user rule's data, and each AI row `i` receives exactly the batch
result at the index of transaction `i` within the batch request. -/
theorem classifyTransactions_spec (rules : List Rule) (batch : List Tx → List AiRes)
    (txs : List Tx)
    (hb : (batch (aiTxs (phase1 rules txs))).length = (aiTxs (phase1 rules txs)).length) :
    ∃ out, classifyTransactions rules batch txs = some out ∧
      out.length = txs.length ∧
      (∀ i tx, txs.get? i = some tx → (out.get? i).map BatchRes.tx = some tx) ∧
      (∀ i tx r, txs.get? i = some tx → userRuleFor rules tx = some r →
        out.get? i = some ⟨tx, r.account, r.confidence, matchedReason r, ruleS⟩) ∧
      (∀ i tx, txs.get? i = some tx → userRuleFor rules tx = none →
        (aiTxs (phase1 rules txs)).get? (numPendingBefore (phase1 rules txs) i) = some tx ∧
        out.get? i = ((batch (aiTxs (phase1 rules txs))).get?
          (numPendingBefore (phase1 rules txs) i)).map (mkAiRow tx)) := by
  set ps := phase1 rules txs with hps
  set atxs := aiTxs ps with hatxs
  set ais := if atxs.isEmpty then [] else batch atxs with hais
  have hlen : atxs.length ≤ ais.length := by
    by_cases he : atxs.isEmpty
    · rw [hais, if_pos he, List.isEmpty_iff.mp he]
      exact le_rfl
    · rw [hais, if_neg he, hb]
  rcases merge_spec ps ais hlen with ⟨out, hm, hl, hr, hp⟩
  have hgetps : ∀ i, ps.get? i = (txs.get? i).map (phase1Step rules) := by
    intro i; rw [hps, phase1, List.get?_map]
  refine ⟨out, ?_, ?_, ?_, ?_, ?_⟩
  · rw [classifyTransactions]; exact hm
  · rw [hl, hps, phase1, List.length_map]
  · -- positional transaction alignment
    intro i tx hi
    have hstep : ps.get? i = some (phase1Step rules tx) := by rw [hgetps i, hi]; rfl
    cases hur : userRuleFor rules tx with
    | some r =>
      have : ps.get? i = some (.ruled ⟨tx, r.account, r.confidence, matchedReason r, ruleS⟩) := by
        rw [hstep, phase1Step, hur]
      rw [hr i _ this]; rfl
    | none =>
      have hpend : ps.get? i = some (.pending tx) := by
        rw [hstep, phase1Step, hur]
      have hatx := aiTxs_get_pending ps i tx hpend
      have hklt : numPendingBefore ps i < atxs.length := by
        by_contra hge
        rw [List.get?_eq_none.mpr (le_of_not_lt hge)] at hatx
        cases hatx
      have hklt' : numPendingBefore ps i < ais.length := lt_of_lt_of_le hklt hlen
      have hsome : ∃ a, ais.get? (numPendingBefore ps i) = some a := by
        cases hv : ais.get? (numPendingBefore ps i) with
        | none => rw [List.get?_eq_none] at hv; omega
        | some a => exact ⟨a, rfl⟩
      rcases hsome with ⟨a, ha⟩
      rw [hp i tx hpend, ha]; rfl
  · -- rule-resolved rows
    intro i tx r hi hur
    have : ps.get? i = some (.ruled ⟨tx, r.account, r.confidence, matchedReason r, ruleS⟩) := by
      rw [hgetps i, hi]
      simp only [Option.map]
      rw [phase1Step, hur]
    exact hr i _ this
  · -- AI rows
    intro i tx hi hur
    have hpend : ps.get? i = some (.pending tx) := by
      rw [hgetps i, hi]
      simp only [Option.map]
      rw [phase1Step, hur]
    have hatx := aiTxs_get_pending ps i tx hpend
    have hne : atxs.isEmpty = false := by
      cases hcase : aiTxs ps with
      | nil => rw [hcase] at hatx; simp at hatx
      | cons x l =>
        show (aiTxs ps).isEmpty = false
        rw [hcase]; rfl
    have haisb : ais = batch atxs := by simp [hais, hne]
    refine ⟨hatx, ?_⟩
    rw [← haisb]
    exact hp i tx hpend

/-! ## Persistence of classifications and feedback
(`ClassificationRepository`, `FeedbackRepository`, `FeedbackHandler.record_feedback`) -/

/-- A `classifications` table row.  The random UUID primary key is embedded
as a `Nat` drawn from a fresh-id counter; the `created_at` timestamp string
is embedded as a `Nat` supplied by the caller at creation time. -/
structure Classification where
  id : Nat
  txId : Str
  account : Str
  confidence : ℚ
  source : Str
  reasoning : Str
  createdAt : Nat
deriving DecidableEq

/-- A `feedback` table row (its `created_at` column is never read by the
modelled behaviour and is omitted). -/
structure FbRow where
  id : Nat
  txId : Str
  originalAccount : Option Str
  correctedAccount : Option Str
  action : Str
deriving DecidableEq

/-- The mutable store the coordinator and the feedback handler write to:
the two tables in insertion (rowid) order plus the fresh-id counter. -/
structure CDB where
  classifications : List Classification
  feedbacks : List FbRow
  nextId : Nat
deriving DecidableEq

/-- `Classifier.save_classification` / `ClassificationRepository.create`:
insert a brand-new row with a fresh id; nothing else is touched. -/
def saveClassification (db : CDB) (txId : Str) (c : CRes) (now : Nat) : CDB :=
  { db with
    classifications := db.classifications ++
      [⟨db.nextId, txId, c.account, c.confidence, c.source, c.reasoning, now⟩],
    nextId := db.nextId + 1 }

/-- `ClassificationRepository.update_account`: the row found by primary-key
lookup (`.filter(id == ...).first()`) gets `account` replaced and `source`
set to `"user"`; embedded as updating the first row with the given id. -/
def updateAccountFirst : List Classification → Nat → Str → List Classification
  | [], _, _ => []
  | c :: rest, cid, acct =>
    if c.id = cid then { c with account := acct, source := userS } :: rest
    else c :: updateAccountFirst rest cid acct

/-- Python truthiness of an optional string (`if corrected_account:`). -/
def truthyS : Option Str → Bool
  | none => false
  | some s => !s.isEmpty

/-- `FeedbackHandler.record_feedback`: always insert a feedback row; when
`action == "modify"` and `corrected_account` is truthy, additionally
retarget the transaction's classification row with maximal `created_at`
(Python `max` over `get_by_transaction_id`) via `update_account`. -/
def recordFeedback (db : CDB) (txId : Str) (orig corrected : Option Str)
    (action : Str) : CDB :=
  let db1 : CDB :=
    ⟨db.classifications,
     db.feedbacks ++ [⟨db.nextId, txId, orig, corrected, action⟩],
     db.nextId + 1⟩
  if action = modifyS ∧ truthyS corrected = true then
    let cls := db1.classifications.filter (fun c => c.txId == txId)
    match pyMaxBy (fun c => c.createdAt) cls with
    | some latest =>
      ⟨updateAccountFirst db1.classifications latest.id (corrected.getD []),
       db1.feedbacks, db1.nextId⟩
    | none => db1
  else db1

/-! ## Rule creation (`RuleEngine.create_rule`, `RuleRepository.create`) -/

/-- `RuleEngine.create_rule` / `RuleRepository.create`: build the row and
insert it.  Neither layer validates `conditions` in any way — the empty
map is inserted like any other — so the operation is total and returns the
new store together with the created rule. -/
def createRule (rules : List Rule) (name : Str) (conditions : Conditions)
    (account : Str) (confidence : ℚ) (source : Str) : List Rule × Rule :=
  let r : Rule := ⟨name, conditions, account, confidence, source⟩
  (rules ++ [r], r)

/-! ## Rule auto-generation (`RuleEngine.auto_generate_rule_from_feedback`) -/

/-- String literal "-", the name-part separator. -/
def dashS : Str := "-".toList

/-- Fallback base name used when peer, item and category are all empty. -/
def autoGenBaseS : Str := "auto-generated-rule".toList

/-- The conditions map built by `auto_generate_rule_from_feedback`: one
entry per non-empty component, each holding the bare component string. -/
def autoRuleConditions (peer item category : Str) : Conditions :=
  ⟨if peer.isEmpty then none else some (.str peer),
   if item.isEmpty then none else some (.str item),
   if category.isEmpty then none else some (.str category)⟩

/-- The rule name built by `auto_generate_rule_from_feedback`: each
non-empty component truncated to 10 characters, dash-joined
(`"-".join(name_parts)`), falling back to `"auto-generated-rule"` when
every component is empty, then `f"{name}-{suffix}"` with the random
6-hex-character suffix (passed in explicitly here). -/
def autoRuleName (peer item category : Str) (suffix : Str) : Str :=
  let nameParts :=
    (if peer.isEmpty then [] else [peer.take 10]) ++
    (if item.isEmpty then [] else [item.take 10]) ++
    (if category.isEmpty then [] else [category.take 10])
  let base := if nameParts.isEmpty then autoGenBaseS else List.intercalate dashS nameParts
  base ++ dashS ++ suffix

/-- Follows the claim's words only (for comparison with the code's
behaviour): "the dash-joined concatenation of each non-empty component
truncated to 10 characters followed by a random 6-character hexadecimal
suffix" — with no special case for an empty component list. -/
def claimedAutoRuleName (peer item category : Str) (suffix : Str) : Str :=
  List.intercalate dashS
    ((if peer.isEmpty then [] else [peer.take 10]) ++
     (if item.isEmpty then [] else [item.take 10]) ++
     (if category.isEmpty then [] else [category.take 10])) ++ dashS ++ suffix

/-- `RuleEngine.auto_generate_rule_from_feedback`: build conditions and name
as above and persist via `create_rule` with `confidence=0.9`,
`source="auto"`. -/
def autoGenerateRuleFromFeedback (rules : List Rule) (peer item category account : Str)
    (suffix : Str) : List Rule × Rule :=
  createRule rules (autoRuleName peer item category suffix)
    (autoRuleConditions peer item category) account (9/10) autoS

/-! ## Feedback mining (`FeedbackHandler`) -/

/-- `TransactionRepository.get_by_id`: first stored transaction with the
given id, if any. -/
def getTxById (txdb : List Tx) (tid : Str) : Option Tx :=
  (txdb.filter (fun t => t.id == tid)).head?

/-- The dict appended to a pattern group by
`analyze_feedback_and_generate_rules`. -/
structure PatternEntry where
  txId : Str
  peer : Str
  item : Str
  category : Str
  corrected : Option Str
deriving DecidableEq

/-- The grouping key `f"{transaction.peer}|{transaction.item}|{transaction.category}"`. -/
def patternKey (t : Tx) : Str :=
  t.peer ++ "|".toList ++ t.item ++ "|".toList ++ t.category

/-- The keyed entries the analysis loop feeds into its `defaultdict`:
one per `modify` feedback whose transaction exists (missing transactions
are skipped with `continue`). -/
def modifyEntries (txdb : List Tx) (fbs : List FbRow) : List (Str × PatternEntry) :=
  (fbs.filter (fun f => f.action == modifyS)).filterMap (fun f =>
    (getTxById txdb f.txId).map (fun t =>
      (patternKey t, ⟨t.id, t.peer, t.item, t.category, f.correctedAccount⟩)))

/-- Append an entry to its group, creating the group at the end on a fresh
key — `defaultdict(list)` keyed in first-appearance order. -/
def insertGroup (gs : List (Str × List PatternEntry)) (k : Str) (e : PatternEntry) :
    List (Str × List PatternEntry) :=
  match gs with
  | [] => [(k, [e])]
  | (k', es) :: rest =>
    if k' == k then (k', es ++ [e]) :: rest else (k', es) :: insertGroup rest k e

/-- Build the `patterns` dict: insertion-ordered association list of groups. -/
def groupByKey (l : List (Str × PatternEntry)) : List (Str × List PatternEntry) :=
  l.foldl (fun gs ke => insertGroup gs ke.1 ke.2) []

/-- The generation loop of `analyze_feedback_and_generate_rules` over the
groups, threading the index used to pick each generated rule's random name
suffix.  A group qualifies when its size reaches `min_confidence` and the
set of corrected accounts (`len(accounts) == 1`, embedded via `dedup`) is a
singleton; the rule targets `list(accounts)[0]`, the group's one corrected
account.  When that one account is `None`, persisting the rule would
violate the NOT NULL constraint of `rules.account` and raise out of the
whole call, which the embedding renders as `none`. -/
def genRulesLoop (suffixAt : Nat → Str) (minC : Nat) :
    List (Str × List PatternEntry) → Nat → Option (List Rule)
  | [], _ => some []
  | (_, es) :: rest, n =>
    if minC ≤ es.length then
      match es with
      | [] => genRulesLoop suffixAt minC rest n
      | e :: _ =>
        if (es.map (fun x => x.corrected)).dedup.length = 1 then
          match e.corrected with
          | some a =>
            (genRulesLoop suffixAt minC rest (n + 1)).map (fun out =>
              (autoGenerateRuleFromFeedback [] e.peer e.item e.category a (suffixAt n)).2 :: out)
          | none => none
        else genRulesLoop suffixAt minC rest n
    else genRulesLoop suffixAt minC rest n

/-- `FeedbackHandler.analyze_feedback_and_generate_rules`: fetch feedback
through the default pagination window (`list_all` with `skip=0, limit=100`),
keep `modify` actions, group by pattern key and generate one `auto` rule
per qualifying group.  The generated rules are returned (each is also
persisted through `create`, which does not affect the returned list). -/
def analyzeFeedbackAndGenerateRules (txdb : List Tx) (fbdb : List FbRow)
    (minC : Nat) (suffixAt : Nat → Str) : Option (List Rule) :=
  genRulesLoop suffixAt minC (groupByKey (modifyEntries txdb (listAll fbdb 0 100))) 0

/-- A group qualifies for rule generation: size at least `min_confidence`
and all corrected accounts agree. -/
def qualifiesGroup (minC : Nat) (g : Str × List PatternEntry) : Bool :=
  decide (minC ≤ g.2.length) && decide ((g.2.map (fun x => x.corrected)).dedup.length = 1)

/-- Follows the claim's words only (for comparison with the loop): one rule
per qualifying group, built from the group's first entry and its corrected
account, indexed in group order for the name suffix. -/
def specRulesForGroups (suffixAt : Nat → Str) :
    Nat → List (Str × List PatternEntry) → List Rule
  | _, [] => []
  | n, (_, []) :: rest => specRulesForGroups suffixAt n rest
  | n, (_, e :: _) :: rest =>
    (autoGenerateRuleFromFeedback [] e.peer e.item e.category (e.corrected.getD [])
      (suffixAt n)).2 :: specRulesForGroups suffixAt (n + 1) rest

/-! ## Feedback statistics (`FeedbackHandler.get_statistics`) -/

/-- The dict `get_statistics` returns; the two rates are exact rationals. -/
structure Stats where
  total : Nat
  accept : Nat
  reject : Nat
  modify : Nat
  acceptRate : ℚ
  modifyRate : ℚ
deriving DecidableEq

/-- `FeedbackHandler.get_statistics`: counts over the feedback rows returned
by `list_all` (default pagination window), with division guarded by
`if total > 0 else 0`. -/
def getStatistics (fbdb : List FbRow) : Stats :=
  let feedbacks := listAll fbdb 0 100
  let total := feedbacks.length
  let accept := (feedbacks.filter (fun f => f.action == acceptS)).length
  let reject := (feedbacks.filter (fun f => f.action == rejectS)).length
  let modify := (feedbacks.filter (fun f => f.action == modifyS)).length
  ⟨total, accept, reject, modify,
   if 0 < total then (accept : ℚ) / total else 0,
   if 0 < total then (modify : ℚ) / total else 0⟩

/-! ## Claim C3: matching semantics -/

theorem ruleMatches_iff (r : Rule) (peer item category : Str) :
    ruleMatches r peer item category = true ↔
      (∀ v, r.conditions.peer = some v → ∃ p ∈ v.pats, p <:+: peer) ∧
      (∀ v, r.conditions.item = some v → ∃ p ∈ v.pats, p <:+: item) ∧
      (∀ v, r.conditions.category = some v → category ∈ v.pats) := by
  rw [ruleMatches]
  simp only [Bool.and_eq_true]
  constructor
  · rintro ⟨⟨h1, h2⟩, h3⟩
    refine ⟨?_, ?_, ?_⟩
    · intro v hv
      rw [hv] at h1
      simp only [patsSubstrMatch, List.any_eq_true, decide_eq_true_eq] at h1
      exact h1
    · intro v hv
      rw [hv] at h2
      simp only [patsSubstrMatch, List.any_eq_true, decide_eq_true_eq] at h2
      exact h2
    · intro v hv
      rw [hv] at h3
      simpa [List.contains, List.elem_iff] using h3
  · rintro ⟨h1, h2, h3⟩
    refine ⟨⟨?_, ?_⟩, ?_⟩
    · cases hv : r.conditions.peer with
      | none => rfl
      | some v =>
        simp only [patsSubstrMatch, List.any_eq_true, decide_eq_true_eq]
        exact h1 v hv
    · cases hv : r.conditions.item with
      | none => rfl
      | some v =>
        simp only [patsSubstrMatch, List.any_eq_true, decide_eq_true_eq]
        exact h2 v hv
    · cases hv : r.conditions.category with
      | none => rfl
      | some v => simpa [List.contains, List.elem_iff] using h3 v hv

/-- Example rule with a `peer` substring pattern "Star". -/
def starRule : Rule :=
  ⟨"star-rule".toList, ⟨some (.str "Star".toList), none, none⟩,
   "Expenses:Food:Dining".toList, 1, userS⟩

/-- Example rule with a `category` exact pattern "Food". -/
def foodCatRule : Rule :=
  ⟨"food-rule".toList, ⟨none, none, some (.str "Food".toList)⟩,
   "Expenses:Food".toList, 1, userS⟩

/-- Counterexample to claim C3: a stored rule beyond the first 100 rows
whose conditions hold is nevertheless not returned by `match_transaction`,
because the rule fetch uses `list_all`'s default `limit=100`; so "returned
iff all present condition keys evaluate true" fails over the whole store. -/
theorem c3_counterexample :
    starRule ∈ (List.replicate 100 foodCatRule ++ [starRule]) ∧
    ruleMatches starRule "Starbucks Coffee".toList [] [] = true ∧
    starRule ∉ matchTransaction (List.replicate 100 foodCatRule ++ [starRule])
      "Starbucks Coffee".toList [] [] :=
  ⟨List.mem_append.mpr (Or.inr (List.mem_cons_self _ _)), by decide, by decide⟩

/-- Claim C3 as amended: `match_transaction` returns a rule iff it lies
within the first 100 stored rules (the `list_all` default pagination
window it fetches through) and every condition key present in its
conditions map holds, with substring semantics for `peer`/`item` and
exact-membership semantics for `category`; in particular peer pattern
"Star" matches peer "Starbucks Coffee" and category pattern "Food" does
not match category "Food:Dining". -/
theorem c3_match_condition_semantics :
    (∀ (rules : List Rule) (r : Rule) (peer item category : Str),
      r ∈ matchTransaction rules peer item category ↔
        r ∈ listAll rules 0 100 ∧
        (∀ v, r.conditions.peer = some v → ∃ p ∈ v.pats, p <:+: peer) ∧
        (∀ v, r.conditions.item = some v → ∃ p ∈ v.pats, p <:+: item) ∧
        (∀ v, r.conditions.category = some v → category ∈ v.pats)) ∧
    starRule ∈ matchTransaction [starRule] "Starbucks Coffee".toList [] [] ∧
    foodCatRule ∉ matchTransaction [foodCatRule] [] [] "Food:Dining".toList := by
  refine ⟨?_, by decide, by decide⟩
  intro rules r peer item category
  rw [matchTransaction, List.mem_filter, ruleMatches_iff]

/-! ## Claim C5: rule creation does not validate conditions (corrected) -/

/-- Counterexample to claim C5: creating a rule with the empty conditions
map does not fail — the rule is inserted into the store. -/
theorem c5_counterexample :
    (createRule [] "empty-rule".toList Conditions.empty "Expenses:Misc".toList 1 userS).1 =
      [⟨"empty-rule".toList, Conditions.empty, "Expenses:Misc".toList, 1, userS⟩] ∧
    ((createRule [] "empty-rule".toList Conditions.empty "Expenses:Misc".toList 1 userS).1).length = 1 :=
  ⟨rfl, rfl⟩

/-- Claim C5 as amended: `create_rule` performs no validation at all — for
every conditions map (the empty one included) it succeeds, appending
exactly one rule carrying the given fields and leaving existing rules
untouched. -/
theorem c5_create_unvalidated (rules : List Rule) (name : Str) (conditions : Conditions)
    (account : Str) (confidence : ℚ) (source : Str) :
    (createRule rules name conditions account confidence source).1 =
      rules ++ [(createRule rules name conditions account confidence source).2] ∧
    ((createRule rules name conditions account confidence source).1).length =
      rules.length + 1 ∧
    (createRule rules name conditions account confidence source).2 =
      ⟨name, conditions, account, confidence, source⟩ :=
  ⟨rfl, by simp [createRule], rfl⟩

/-! ## Claim C9: shape of auto-generated rules (corrected) -/

theorem autoRuleName_of_nonempty (peer item category suffix : Str)
    (h : ¬(peer = [] ∧ item = [] ∧ category = [])) :
    autoRuleName peer item category suffix =
      claimedAutoRuleName peer item category suffix := by
  rw [autoRuleName, claimedAutoRuleName]
  cases peer with
  | cons a l => rfl
  | nil =>
    cases item with
    | cons a l => rfl
    | nil =>
      cases category with
      | cons a l => rfl
      | nil => exact absurd ⟨rfl, rfl, rfl⟩ h

/-- Counterexample to claim C9: when peer, item and category are all empty
the generated name is `"auto-generated-rule-<suffix>"`, not the dash-joined
concatenation of the (zero) non-empty components followed by the suffix. -/
theorem c9_counterexample :
    (autoGenerateRuleFromFeedback [] [] [] [] "Expenses:Misc".toList "abc123".toList).2.name =
      "auto-generated-rule-abc123".toList ∧
    claimedAutoRuleName [] [] [] "abc123".toList = "-abc123".toList ∧
    (autoGenerateRuleFromFeedback [] [] [] [] "Expenses:Misc".toList "abc123".toList).2.name ≠
      claimedAutoRuleName [] [] [] "abc123".toList :=
  ⟨by decide, by decide, by decide⟩

/-- Claim C9 as amended: `auto_generate_rule_from_feedback` persists via
`create` a rule whose conditions map holds exactly the non-empty
components (each as the bare pattern value), whose confidence is 0.9 and
source is "auto", and whose name is the dash-joined concatenation of the
non-empty components truncated to 10 characters followed by the random
suffix — except that when all three components are empty the base name is
the literal "auto-generated-rule". -/
theorem c9_auto_rule_shape (rules : List Rule) (peer item category account suffix : Str) :
    (autoGenerateRuleFromFeedback rules peer item category account suffix).1 =
      rules ++ [(autoGenerateRuleFromFeedback rules peer item category account suffix).2] ∧
    (autoGenerateRuleFromFeedback rules peer item category account suffix).2.confidence = 9/10 ∧
    (autoGenerateRuleFromFeedback rules peer item category account suffix).2.source = autoS ∧
    (autoGenerateRuleFromFeedback rules peer item category account suffix).2.account = account ∧
    (autoGenerateRuleFromFeedback rules peer item category account suffix).2.conditions =
      autoRuleConditions peer item category ∧
    (peer = [] → (autoRuleConditions peer item category).peer = none) ∧
    (peer ≠ [] → (autoRuleConditions peer item category).peer = some (.str peer)) ∧
    (item = [] → (autoRuleConditions peer item category).item = none) ∧
    (item ≠ [] → (autoRuleConditions peer item category).item = some (.str item)) ∧
    (category = [] → (autoRuleConditions peer item category).category = none) ∧
    (category ≠ [] → (autoRuleConditions peer item category).category = some (.str category)) ∧
    (¬(peer = [] ∧ item = [] ∧ category = []) →
      (autoGenerateRuleFromFeedback rules peer item category account suffix).2.name =
        claimedAutoRuleName peer item category suffix) ∧
    (peer = [] ∧ item = [] ∧ category = [] →
      (autoGenerateRuleFromFeedback rules peer item category account suffix).2.name =
        autoGenBaseS ++ dashS ++ suffix) := by
  refine ⟨rfl, rfl, rfl, rfl, rfl, ?_, ?_, ?_, ?_, ?_, ?_, ?_, ?_⟩
  · intro h; rw [autoRuleConditions, h]; rfl
  · intro h
    cases peer with
    | nil => exact absurd rfl h
    | cons a l => rfl
  · intro h; rw [autoRuleConditions, h]; rfl
  · intro h
    cases item with
    | nil => exact absurd rfl h
    | cons a l => rfl
  · intro h; rw [autoRuleConditions, h]; rfl
  · intro h
    cases category with
    | nil => exact absurd rfl h
    | cons a l => rfl
  · intro h
    exact autoRuleName_of_nonempty peer item category suffix h
  · rintro ⟨hp, hi, hc⟩
    rw [hp, hi, hc]
    rfl

/-- Witness for C9: instantiation at a non-empty peer. -/
theorem c9_witness :
    ¬(("Starbucks Coffee Roastery".toList : Str) = [] ∧ ("".toList : Str) = [] ∧
      ("".toList : Str) = []) ∧
    (autoGenerateRuleFromFeedback [] "Starbucks Coffee Roastery".toList [] []
      "Expenses:Food:Dining".toList "abc123".toList).2.name =
      claimedAutoRuleName "Starbucks Coffee Roastery".toList [] [] "abc123".toList :=
  ⟨by decide,
   (c9_auto_rule_shape [] "Starbucks Coffee Roastery".toList [] []
      "Expenses:Food:Dining".toList "abc123".toList).2.2.2.2.2.2.2.2.2.2.2.1 (by decide)⟩

/-! ## Claim C10: empty-conditions rules match everything (within the scan window) -/

/-- An empty-conditions user rule used in the C10 counterexample. -/
def emptyCondRule : Rule :=
  ⟨"empty-rule".toList, Conditions.empty, "Expenses:Misc".toList, 1, userS⟩

/-- Counterexample to claim C10: an empty-conditions rule stored beyond the
first 100 rows passes every condition check vacuously yet is not returned
by `match_transaction`, which fetches rules through `list_all`'s default
`limit=100` window. -/
theorem c10_counterexample :
    ruleMatches emptyCondRule "Starbucks".toList [] [] = true ∧
    emptyCondRule ∈ (List.replicate 100 foodCatRule ++ [emptyCondRule]) ∧
    emptyCondRule ∉ matchTransaction (List.replicate 100 foodCatRule ++ [emptyCondRule])
      "Starbucks".toList [] [] :=
  ⟨rfl, List.mem_append.mpr (Or.inr (List.mem_cons_self _ _)), by decide⟩

/-- Claim C10 as amended: a stored rule whose conditions map is empty
passes all condition checks vacuously, so whenever it lies within the
first 100 stored rules (the `list_all` default window `match_transaction`
scans) it is returned for every (peer, item, category) triple; and such
rules are creatable: `create_rule` inserts the empty conditions map
without validation, and `auto_generate_rule_from_feedback` builds the
empty map when all three components are empty. -/
theorem c10_empty_conditions_rule_matches_all (rules1 rules2 db : List Rule)
    (name account account2 suffix : Str) (confidence : ℚ) (source : Str)
    (peer item category : Str) (hw : rules1.length < 100) :
    ruleMatches ⟨name, Conditions.empty, account, confidence, source⟩ peer item category = true ∧
    (⟨name, Conditions.empty, account, confidence, source⟩ : Rule) ∈
      matchTransaction
        (rules1 ++ ⟨name, Conditions.empty, account, confidence, source⟩ :: rules2)
        peer item category ∧
    (createRule db name Conditions.empty account confidence source).1 =
      db ++ [⟨name, Conditions.empty, account, confidence, source⟩] ∧
    ((autoGenerateRuleFromFeedback db [] [] [] account2 suffix).2).conditions =
      Conditions.empty := by
  refine ⟨rfl, ?_, rfl, rfl⟩
  rw [matchTransaction, List.mem_filter]
  refine ⟨?_, rfl⟩
  rw [listAll, List.drop_zero, List.take_append_eq_append_take,
    List.take_of_length_le (le_of_lt hw),
    show (100 - rules1.length) = (99 - rules1.length) + 1 from by omega,
    List.take_succ_cons]
  exact List.mem_append.mpr (Or.inr (List.mem_cons_self _ _))

/-- Witness for C10: an empty-conditions rule stored first is returned for
an arbitrary concrete transaction. -/
theorem c10_witness :
    (([] : List Rule).length < 100) ∧
    emptyCondRule ∈ matchTransaction ([] ++ emptyCondRule :: [])
      "Starbucks".toList "Latte".toList "Coffee".toList :=
  ⟨by decide,
   (c10_empty_conditions_rule_matches_all [] [] [] "empty-rule".toList
      "Expenses:Misc".toList "Expenses:Misc".toList "abc123".toList 1 userS
      "Starbucks".toList "Latte".toList "Coffee".toList (by decide)).2.1⟩

/-! ## Claim C2: user-rule priority -/

/-- Claim C2: when at least one user-sourced rule matches, the single
classification returns a maximum-confidence matched user rule's account
and confidence with `source="rule"` and a reasoning string naming the
rule, independently of the AI provider's (hypothetical) answer. -/
theorem c2_user_rule_priority (rules : List Rule) (tx : Tx) (ai1 ai2 : AiRes)
    (h : userRulesFor rules tx ≠ []) :
    ∃ r ∈ userRulesFor rules tx,
      (∀ q ∈ userRulesFor rules tx, q.confidence ≤ r.confidence) ∧
      r.source = userS ∧
      r ∈ matchTransaction rules tx.peer tx.item tx.category ∧
      classifyTransaction rules ai1 tx = ⟨r.account, r.confidence, matchedReason r, ruleS⟩ ∧
      classifyTransaction rules ai1 tx = classifyTransaction rules ai2 tx := by
  cases hm : userRuleFor rules tx with
  | none =>
    rw [userRuleFor, pyMaxBy_eq_none_iff] at hm
    exact absurd hm h
  | some r =>
    have hm' : pyMaxBy (fun r => r.confidence) (userRulesFor rules tx) = some r := hm
    have hrmem := pyMaxBy_mem _ hm'
    have hmax := pyMaxBy_is_max _ hm'
    have hfil := List.mem_filter.mp hrmem
    refine ⟨r, hrmem, hmax, ?_, hfil.1, ?_, ?_⟩
    · exact of_decide_eq_true hfil.2
    · rw [classifyTransaction, hm]
    · rw [classifyTransaction, classifyTransaction, hm]

/-- Example transaction whose peer is "Starbucks Coffee". -/
def txStar : Tx := ⟨"t1".toList, "Starbucks Coffee".toList, [], []⟩

/-- Example user rule of confidence 0.6 matching `txStar`. -/
def rule06 : Rule :=
  ⟨"r6".toList, ⟨some (.str "Star".toList), none, none⟩,
   "Expenses:Coffee".toList, 3/5, userS⟩

/-- Example user rule of confidence 0.9 matching `txStar`. -/
def rule09 : Rule :=
  ⟨"r9".toList, ⟨some (.str "Starbucks".toList), none, none⟩,
   "Expenses:Food:Dining".toList, 9/10, userS⟩

/-- Example AI answer (never used on the rule path). -/
def aiMisc : AiRes := ⟨miscAccountS, 0, []⟩

theorem userRulesFor_star_eq : userRulesFor [rule06, rule09] txStar = [rule06, rule09] := by
  have hwin : listAll [rule06, rule09] 0 100 = [rule06, rule09] := rfl
  rw [userRulesFor, matchTransaction, hwin]
  rw [List.filter_cons, if_pos (by decide), List.filter_cons, if_pos (by decide)]
  rw [List.filter_cons, if_pos (by decide), List.filter_cons, if_pos (by decide)]
  rfl

theorem userRuleFor_star_eq : userRuleFor [rule06, rule09] txStar = some rule09 := by
  have hlt : rule06.confidence < rule09.confidence := by
    show (3/5 : ℚ) < 9/10
    norm_num
  rw [userRuleFor, userRulesFor_star_eq, pyMaxBy]
  simp only [List.foldl]
  rw [if_pos hlt]

/-- Witness for C2: with matching user rules of confidence 0.6 and 0.9, the
0.9 rule's account is returned with `source="rule"`. -/
theorem c2_witness :
    userRulesFor [rule06, rule09] txStar ≠ [] ∧
    (∃ r ∈ userRulesFor [rule06, rule09] txStar,
      (∀ q ∈ userRulesFor [rule06, rule09] txStar, q.confidence ≤ r.confidence) ∧
      r.source = userS ∧
      r ∈ matchTransaction [rule06, rule09] txStar.peer txStar.item txStar.category ∧
      classifyTransaction [rule06, rule09] aiMisc txStar =
        ⟨r.account, r.confidence, matchedReason r, ruleS⟩ ∧
      classifyTransaction [rule06, rule09] aiMisc txStar =
        classifyTransaction [rule06, rule09] aiMisc txStar) ∧
    classifyTransaction [rule06, rule09] aiMisc txStar =
      ⟨rule09.account, 9/10, matchedReason rule09, ruleS⟩ :=
  ⟨by rw [userRulesFor_star_eq]; simp,
   c2_user_rule_priority [rule06, rule09] txStar aiMisc aiMisc
     (by rw [userRulesFor_star_eq]; simp),
   by rw [classifyTransaction, userRuleFor_star_eq]; rfl⟩

/-! ## Claim C1: order preservation of batch classification -/

/-- Claim C1: under the provider contract that the batch call returns as
many results as transactions it was given, `classify_transactions` returns
exactly one result per input transaction, in input order: each output row
carries the input transaction at its own position; rule-resolved positions
hold the selected rule's data; and each AI position `i` holds the batch
result at the index of transaction `i` within the batch request (the
splice-by-index invariant). -/
theorem c1_classify_many_order_preserved (rules : List Rule)
    (batch : List Tx → List AiRes) (txs : List Tx)
    (hb : (batch (aiTxs (phase1 rules txs))).length = (aiTxs (phase1 rules txs)).length) :
    ∃ out, classifyTransactions rules batch txs = some out ∧
      out.length = txs.length ∧
      (∀ i tx, txs.get? i = some tx → (out.get? i).map BatchRes.tx = some tx) ∧
      (∀ i tx r, txs.get? i = some tx → userRuleFor rules tx = some r →
        out.get? i = some ⟨tx, r.account, r.confidence, matchedReason r, ruleS⟩) ∧
      (∀ i tx, txs.get? i = some tx → userRuleFor rules tx = none →
        (aiTxs (phase1 rules txs)).get? (numPendingBefore (phase1 rules txs) i) = some tx ∧
        out.get? i = ((batch (aiTxs (phase1 rules txs))).get?
          (numPendingBefore (phase1 rules txs) i)).map (mkAiRow tx)) :=
  classifyTransactions_spec rules batch txs hb

/-- Example transaction matching no rule. -/
def txPlain : Tx := ⟨"t0".toList, "Metro".toList, [], []⟩

/-- A batch provider answering every transaction with the same result. -/
def constBatch : List Tx → List AiRes := fun l => l.map (fun _ => aiMisc)

/-- Witness for C1: a two-transaction batch, one rule-resolved and one
AI-resolved, yields two results. -/
theorem c1_witness :
    (constBatch (aiTxs (phase1 [rule09] [txStar, txPlain]))).length =
      (aiTxs (phase1 [rule09] [txStar, txPlain])).length ∧
    ∃ out, classifyTransactions [rule09] constBatch [txStar, txPlain] = some out ∧
      out.length = 2 :=
  ⟨by decide, by
    rcases c1_classify_many_order_preserved [rule09] constBatch [txStar, txPlain]
      (by decide) with ⟨out, h1, h2, _⟩
    exact ⟨out, h1, by rw [h2]; rfl⟩⟩

/-! ## Claim C4: provider failure degrades to a default result -/

/-- Claim C4: whenever the provider's `batch_classify` ends up on its
per-transaction path (a batch of more than 10, a failing batch call, or a
batch result-count mismatch — the latter two being exactly the documented
fallbacks), a failing AI call for one transaction yields the default
`{Expenses:Misc, 0.0, "API call failed: ..."}` result tagged `source="ai"`
at that transaction's position, while every other transaction's result is
unaffected (rule-resolved rows keep their rule data, successful AI rows
keep the provider's answer), and the batch still yields one result per
input. -/
theorem c4_provider_failure_degrades (rules : List Rule)
    (bcall : List Tx → Except Str (List AiRes)) (call : Tx → Except Str AiRes)
    (txs : List Tx) (i : Nat) (tx : Tx) (e : Str)
    (hi : txs.get? i = some tx) (hnr : userRuleFor rules tx = none)
    (he : call tx = .error e)
    (hpath : 10 < (aiTxs (phase1 rules txs)).length ∨
      (∃ eb, bcall (aiTxs (phase1 rules txs)) = .error eb) ∨
      (∃ rs, bcall (aiTxs (phase1 rules txs)) = .ok rs ∧
        rs.length ≠ (aiTxs (phase1 rules txs)).length)) :
    ∃ out, classifyTransactions rules (batchClassify bcall call) txs = some out ∧
      out.length = txs.length ∧
      out.get? i = some ⟨tx, miscAccountS, 0, apiFailS ++ e, aiS⟩ ∧
      (∀ j u r, txs.get? j = some u → userRuleFor rules u = some r →
        out.get? j = some ⟨u, r.account, r.confidence, matchedReason r, ruleS⟩) ∧
      (∀ j u a, txs.get? j = some u → userRuleFor rules u = none → call u = .ok a →
        out.get? j = some (mkAiRow u a)) := by
  have hone : batchClassify bcall call (aiTxs (phase1 rules txs)) =
      classifyOneByOne call (aiTxs (phase1 rules txs)) := by
    rcases hpath with h10 | ⟨eb, heb⟩ | ⟨rs, hok, hlen⟩
    · rw [batchClassify, if_neg (by omega)]
    · by_cases h10 : (aiTxs (phase1 rules txs)).length ≤ 10
      · rw [batchClassify, if_pos h10, heb]
      · rw [batchClassify, if_neg h10]
    · by_cases h10 : (aiTxs (phase1 rules txs)).length ≤ 10
      · rw [batchClassify, if_pos h10, hok]
        exact if_pos hlen
      · rw [batchClassify, if_neg h10]
  have hb : (batchClassify bcall call (aiTxs (phase1 rules txs))).length =
      (aiTxs (phase1 rules txs)).length := by
    rw [hone]
    exact List.length_map _ _
  rcases classifyTransactions_spec rules (batchClassify bcall call) txs hb with
    ⟨out, h1, h2, _h3, h4, h5⟩
  refine ⟨out, h1, h2, ?_, h4, ?_⟩
  · rcases h5 i tx hi hnr with ⟨hatx, hout⟩
    rw [hout, hone, classifyOneByOne, List.get?_map, hatx]
    simp only [Option.map]
    rw [providerClassify, he]
    rfl
  · intro j u a hj hu ha
    rcases h5 j u hj hu with ⟨hatx, hout⟩
    rw [hout, hone, classifyOneByOne, List.get?_map, hatx]
    simp only [Option.map]
    rw [providerClassify, ha]

/-- Witness transactions for C4. -/
def wtx1 : Tx := ⟨"t1".toList, "PeerA".toList, [], []⟩

/-- Second witness transaction (the one whose AI call fails). -/
def wtx2 : Tx := ⟨"t2".toList, "PeerB".toList, [], []⟩

/-- Third witness transaction. -/
def wtx3 : Tx := ⟨"t3".toList, "PeerC".toList, [], []⟩

/-- A provider call failing exactly on the transaction with id "t2". -/
def wCall : Tx → Except Str AiRes := fun t =>
  if t.id = "t2".toList then .error "boom".toList
  else .ok ⟨"Expenses:Food:Dining".toList, 4/5, "ok".toList⟩

/-- A batch call that always fails, forcing the one-by-one fallback. -/
def wBcall : List Tx → Except Str (List AiRes) := fun _ => .error "batch failed".toList

/-- Witness for C4: the batch call fails, the one-by-one fallback runs, the
second of three transactions fails individually; three results come back,
the second being the degraded default. -/
theorem c4_witness :
    ([wtx1, wtx2, wtx3].get? 1 = some wtx2) ∧
    userRuleFor [] wtx2 = none ∧
    wCall wtx2 = .error "boom".toList ∧
    (∃ eb, wBcall (aiTxs (phase1 [] [wtx1, wtx2, wtx3])) = .error eb) ∧
    ∃ out, classifyTransactions [] (batchClassify wBcall wCall) [wtx1, wtx2, wtx3] =
        some out ∧
      out.get? 1 = some ⟨wtx2, miscAccountS, 0, apiFailS ++ "boom".toList, aiS⟩ ∧
      out.length = 3 :=
  ⟨rfl, rfl, by rfl, ⟨"batch failed".toList, rfl⟩, by
    rcases c4_provider_failure_degrades [] wBcall wCall [wtx1, wtx2, wtx3] 1 wtx2
      "boom".toList rfl rfl (by rfl)
      (Or.inr (Or.inl ⟨"batch failed".toList, rfl⟩)) with ⟨out, h1, h2, h3, _, _⟩
    exact ⟨out, h1, h3, by rw [h2]; rfl⟩⟩

/-! ## Claim C7: append-only classification history with the modify exception -/

theorem updateAccountFirst_set : ∀ (rows : List Classification) (j : Nat)
    (latest : Classification) (s : Str),
    (rows.map (fun x => x.id)).Nodup → rows.get? j = some latest →
    updateAccountFirst rows latest.id s =
      rows.set j { latest with account := s, source := userS } := by
  intro rows
  induction rows with
  | nil => intro j latest s _ hj; simp at hj
  | cons r rest ih =>
    intro j latest s hnd hj
    rcases List.nodup_cons.mp hnd with ⟨hnotin, hndrest⟩
    cases j with
    | zero =>
      simp only [List.get?, Option.some.injEq] at hj
      subst hj
      simp only [updateAccountFirst]
      simp [List.set]
    | succ j =>
      simp only [List.get?] at hj
      have hmem : latest ∈ rest := List.get?_mem hj
      have hid : r.id ≠ latest.id := by
        intro h
        apply hnotin
        show r.id ∈ List.map (fun x => x.id) rest
        rw [h]
        exact List.mem_map_of_mem _ hmem
      simp only [updateAccountFirst]
      rw [if_neg hid, ih j latest s hndrest hj]
      rfl

/-- Claim C7: `save_classification` always appends a brand-new row (so
classifying the same transaction twice yields two distinct rows and never
mutates existing rows), and the only mutation of an existing row is
`record_feedback` with `action="modify"` and a non-empty corrected
account, which retargets the transaction's most recent row (maximal
`created_at`) to the corrected account with `source="user"`, leaving every
other row untouched; any other action (or an absent corrected account)
leaves the classification table unchanged. -/
theorem c7_append_only_modify_retarget (db : CDB) (txId : Str) (c c2 : CRes)
    (now now2 : Nat) (orig : Option Str) (s : Str)
    (hnd : (db.classifications.map (fun x => x.id)).Nodup)
    (hs : s ≠ []) :
    (saveClassification db txId c now).classifications =
      db.classifications ++
        [⟨db.nextId, txId, c.account, c.confidence, c.source, c.reasoning, now⟩] ∧
    (∃ r1 r2,
      (saveClassification (saveClassification db txId c now) txId c2 now2).classifications =
        db.classifications ++ [r1, r2] ∧ r1 ≠ r2 ∧ r1.txId = txId ∧ r2.txId = txId) ∧
    ((∃ c0 ∈ db.classifications, c0.txId = txId) →
      ∃ j latest, db.classifications.get? j = some latest ∧ latest.txId = txId ∧
        (∀ c0 ∈ db.classifications, c0.txId = txId → c0.createdAt ≤ latest.createdAt) ∧
        (recordFeedback db txId orig (some s) modifyS).classifications =
          db.classifications.set j { latest with account := s, source := userS } ∧
        ((recordFeedback db txId orig (some s) modifyS).classifications).length =
          db.classifications.length ∧
        (∀ k, k ≠ j →
          ((recordFeedback db txId orig (some s) modifyS).classifications).get? k =
            db.classifications.get? k)) ∧
    (∀ (action : Str) (orig2 corr : Option Str), action ≠ modifyS →
      (recordFeedback db txId orig2 corr action).classifications = db.classifications) ∧
    (∀ orig2 : Option Str,
      (recordFeedback db txId orig2 none modifyS).classifications = db.classifications) := by
  refine ⟨rfl, ?_, ?_, ?_, ?_⟩
  · refine ⟨⟨db.nextId, txId, c.account, c.confidence, c.source, c.reasoning, now⟩,
      ⟨db.nextId + 1, txId, c2.account, c2.confidence, c2.source, c2.reasoning, now2⟩,
      ?_, ?_, rfl, rfl⟩
    · simp [saveClassification]
    · intro h
      have := congrArg Classification.id h
      simp at this
  · rintro ⟨c0, hc0, hc0t⟩
    have htr : truthyS (some s) = true := by
      cases s with
      | nil => exact absurd rfl hs
      | cons a l => rfl
    have hc0in : c0 ∈ db.classifications.filter (fun c => c.txId == txId) :=
      List.mem_filter.mpr ⟨hc0, by simp [hc0t]⟩
    cases hmax : pyMaxBy (fun c => c.createdAt)
        (db.classifications.filter (fun c => c.txId == txId)) with
    | none =>
      rw [pyMaxBy_eq_none_iff] at hmax
      rw [hmax] at hc0in
      cases hc0in
    | some latest =>
      have hlmem := pyMaxBy_mem _ hmax
      have hlmax := pyMaxBy_is_max _ hmax
      have hlrows : latest ∈ db.classifications := (List.mem_filter.mp hlmem).1
      have hltx : latest.txId = txId := by
        have h2 := (List.mem_filter.mp hlmem).2
        simpa using h2
      rcases List.get?_of_mem hlrows with ⟨j, hj⟩
      have heq : (recordFeedback db txId orig (some s) modifyS).classifications =
          db.classifications.set j { latest with account := s, source := userS } := by
        simp only [recordFeedback]
        rw [if_pos (⟨by trivial, htr⟩ : _ ∧ _), hmax]
        exact updateAccountFirst_set db.classifications j latest s hnd hj
      refine ⟨j, latest, hj, hltx, ?_, heq, by rw [heq, List.length_set], ?_⟩
      · intro c1 h1 h1t
        exact hlmax c1 (List.mem_filter.mpr ⟨h1, by simp [h1t]⟩)
      · intro k hk
        rw [heq]
        exact List.get?_set_ne _ _ (Ne.symm hk)
  · intro action orig2 corr hne
    simp only [recordFeedback]
    rw [if_neg (fun h => hne h.1)]
  · intro orig2
    simp only [recordFeedback]
    rw [if_neg (fun h => Bool.false_ne_true h.2)]

/-- Witness classification row. -/
def wcls : Classification :=
  ⟨0, "t1".toList, "Expenses:Misc".toList, 1, aiS, [], 5⟩

/-- Witness store with a single classification row. -/
def wdb : CDB := ⟨[wcls], [], 1⟩

/-- Witness for C7: in a store with one classification for "t1", a modify
feedback with corrected account "Expenses:Food" retargets that row. -/
theorem c7_witness :
    ((wdb.classifications.map (fun x => x.id)).Nodup) ∧
    ("Expenses:Food".toList ≠ ([] : Str)) ∧
    (∃ c0 ∈ wdb.classifications, c0.txId = "t1".toList) ∧
    ∃ j latest, wdb.classifications.get? j = some latest ∧
      (recordFeedback wdb "t1".toList none (some "Expenses:Food".toList)
        modifyS).classifications =
        wdb.classifications.set j
          { latest with account := "Expenses:Food".toList, source := userS } := by
  refine ⟨by decide, by decide, ⟨wcls, List.mem_cons_self _ _, rfl⟩, ?_⟩
  rcases c7_append_only_modify_retarget wdb "t1".toList
      ⟨miscAccountS, 1, [], aiS⟩ ⟨miscAccountS, 1, [], aiS⟩ 0 0 none
      "Expenses:Food".toList (by decide) (by decide) with ⟨_, _, h3, _, _⟩
  rcases h3 ⟨wcls, List.mem_cons_self _ _, rfl⟩ with ⟨j, latest, hj, _, _, heq, _, _⟩
  exact ⟨j, latest, hj, heq⟩

/-! ## Claim C8: feedback statistics (corrected to the pagination window) -/

theorem getStatistics_acceptRate (fbdb : List FbRow) :
    (getStatistics fbdb).acceptRate =
      if 0 < (getStatistics fbdb).total
      then ((getStatistics fbdb).accept : ℚ) / ((getStatistics fbdb).total : ℚ)
      else 0 := rfl

theorem getStatistics_modifyRate (fbdb : List FbRow) :
    (getStatistics fbdb).modifyRate =
      if 0 < (getStatistics fbdb).total
      then ((getStatistics fbdb).modify : ℚ) / ((getStatistics fbdb).total : ℚ)
      else 0 := rfl

/-- Counterexample to claim C8: with 101 stored feedback rows, `total` is
100, not the number of all feedback records — `get_statistics` counts only
the repository's default pagination window of 100 rows. -/
theorem c8_counterexample :
    (getStatistics (List.replicate 101 (⟨0, "t1".toList, none, none, acceptS⟩ : FbRow))).total
      = 100 ∧
    (List.replicate 101 (⟨0, "t1".toList, none, none, acceptS⟩ : FbRow)).length = 101 :=
  ⟨by decide, by decide⟩

/-- Claim C8 as amended: `get_statistics` computes `total` and the per-action
counts over the first 100 feedback records (the `list_all` default
pagination window) rather than over all feedback; within that window the
counts are exact, `accept_rate`/`modify_rate` satisfy `rate * total = count`
when `total > 0`, and both rates are 0 when `total = 0` (the division is
guarded, never raising). -/
theorem c8_statistics_window_guard (fbdb : List FbRow) :
    (getStatistics fbdb).total = min fbdb.length 100 ∧
    (getStatistics fbdb).accept = (fbdb.take 100).countP (fun f => f.action == acceptS) ∧
    (getStatistics fbdb).reject = (fbdb.take 100).countP (fun f => f.action == rejectS) ∧
    (getStatistics fbdb).modify = (fbdb.take 100).countP (fun f => f.action == modifyS) ∧
    ((getStatistics fbdb).total = 0 →
      (getStatistics fbdb).acceptRate = 0 ∧ (getStatistics fbdb).modifyRate = 0) ∧
    (0 < (getStatistics fbdb).total →
      (getStatistics fbdb).acceptRate * (getStatistics fbdb).total =
        (getStatistics fbdb).accept ∧
      (getStatistics fbdb).modifyRate * (getStatistics fbdb).total =
        (getStatistics fbdb).modify) := by
  refine ⟨?_, ?_, ?_, ?_, ?_, ?_⟩
  · show (listAll fbdb 0 100).length = _
    rw [listAll, List.drop_zero, List.length_take, Nat.min_comm]
  · show ((listAll fbdb 0 100).filter _).length = _
    rw [List.countP_eq_length_filter, listAll, List.drop_zero]
  · show ((listAll fbdb 0 100).filter _).length = _
    rw [List.countP_eq_length_filter, listAll, List.drop_zero]
  · show ((listAll fbdb 0 100).filter _).length = _
    rw [List.countP_eq_length_filter, listAll, List.drop_zero]
  · intro h
    rw [getStatistics_acceptRate, getStatistics_modifyRate, h]
    simp
  · intro h
    have hne : ((getStatistics fbdb).total : ℚ) ≠ 0 := by
      exact_mod_cast Nat.pos_iff_ne_zero.mp h
    rw [getStatistics_acceptRate, getStatistics_modifyRate, if_pos h, if_pos h]
    exact ⟨div_mul_cancel₀ _ hne, div_mul_cancel₀ _ hne⟩

/-- Witness for C8: the statistics of an empty feedback history have both
rates equal to 0 (and total 0), without any error. -/
theorem c8_witness :
    (getStatistics []).total = 0 ∧
    (getStatistics []).acceptRate = 0 ∧ (getStatistics []).modifyRate = 0 :=
  ⟨rfl, ((c8_statistics_window_guard []).2.2.2.2.1 rfl).1,
   ((c8_statistics_window_guard []).2.2.2.2.1 rfl).2⟩

/-! ## Claim C6: feedback mining emits one rule per qualifying group -/

theorem insertGroup_ok (L : List (Str × PatternEntry)) :
    ∀ (gs : List (Str × List PatternEntry)) (k : Str) (e : PatternEntry),
      (∀ g ∈ gs, ∀ x ∈ g.2, (g.1, x) ∈ L) → (k, e) ∈ L →
      ∀ g ∈ insertGroup gs k e, ∀ x ∈ g.2, (g.1, x) ∈ L := by
  intro gs
  induction gs with
  | nil =>
    intro k e _ hke g hg x hx
    simp only [insertGroup, List.mem_singleton] at hg
    subst hg
    simp only [List.mem_singleton] at hx
    subst hx
    exact hke
  | cons p rest ih =>
    intro k e hgs hke g hg x hx
    rcases p with ⟨k', es⟩
    simp only [insertGroup] at hg
    by_cases hkk : (k' == k) = true
    · rw [if_pos hkk] at hg
      rcases List.mem_cons.mp hg with rfl | hg'
      · rcases List.mem_append.mp hx with hx1 | hx2
        · exact hgs (k', es) (List.mem_cons_self _ _) x hx1
        · simp only [List.mem_singleton] at hx2
          subst hx2
          have hk : k' = k := by simpa using hkk
          rw [show ((k', es ++ [x]).1 : Str) = k' from rfl, hk]
          exact hke
      · exact hgs _ (List.mem_cons_of_mem _ hg') x hx
    · rw [if_neg hkk] at hg
      rcases List.mem_cons.mp hg with rfl | hg'
      · exact hgs _ (List.mem_cons_self _ _) x hx
      · exact ih k e (fun g hg => hgs g (List.mem_cons_of_mem _ hg)) hke g hg' x hx

theorem groupByKey_sub :
    ∀ (l : List (Str × PatternEntry)) (gs : List (Str × List PatternEntry))
      (L : List (Str × PatternEntry)),
      (∀ g ∈ gs, ∀ x ∈ g.2, (g.1, x) ∈ L) → (∀ ke ∈ l, ke ∈ L) →
      ∀ g ∈ l.foldl (fun gs ke => insertGroup gs ke.1 ke.2) gs, ∀ x ∈ g.2, (g.1, x) ∈ L := by
  intro l
  induction l with
  | nil => intro gs L hgs _ g hg; exact hgs g hg
  | cons ke l ih =>
    intro gs L hgs hl g hg x hx
    simp only [List.foldl_cons] at hg
    refine ih (insertGroup gs ke.1 ke.2) L ?_
      (fun y hy => hl y (List.mem_cons_of_mem _ hy)) g hg x hx
    exact insertGroup_ok L gs ke.1 ke.2 hgs (hl ke (List.mem_cons_self _ _))

/-- Every entry stored in a group of the `patterns` dict is one of the keyed
entries that went in, under its own key. -/
theorem groupByKey_entries (l : List (Str × PatternEntry)) :
    ∀ g ∈ groupByKey l, ∀ x ∈ g.2, (g.1, x) ∈ l :=
  groupByKey_sub l [] l (fun g hg => absurd hg (List.not_mem_nil g)) (fun _ hke => hke)

theorem filter_qual_nonempty (minC : Nat) (gs : List (Str × List PatternEntry)) :
    ∀ g ∈ gs.filter (qualifiesGroup minC), g.2 ≠ [] := by
  intro g hg hnil
  have hq := (List.mem_filter.mp hg).2
  simp [qualifiesGroup, hnil] at hq

theorem genRulesLoop_eq_spec (suffixAt : Nat → Str) (minC : Nat) :
    ∀ (gs : List (Str × List PatternEntry)) (n : Nat),
      (∀ g ∈ gs, ∀ e ∈ g.2, e.corrected ≠ none) →
      genRulesLoop suffixAt minC gs n =
        some (specRulesForGroups suffixAt n (gs.filter (qualifiesGroup minC))) := by
  intro gs
  induction gs with
  | nil => intro n _; rfl
  | cons g rest ih =>
    intro n hok
    rcases g with ⟨k, es⟩
    have hrest : ∀ g ∈ rest, ∀ e ∈ g.2, e.corrected ≠ none :=
      fun g hg => hok g (List.mem_cons_of_mem _ hg)
    by_cases hq : minC ≤ es.length
    · cases es with
      | nil =>
        have hqual : ¬(qualifiesGroup minC (k, ([] : List PatternEntry)) = true) := by
          simp [qualifiesGroup]
        simp only [genRulesLoop]
        rw [if_pos hq, List.filter_cons, if_neg hqual]
        exact ih n hrest
      | cons e es' =>
        by_cases hd : ((e :: es').map (fun x => x.corrected)).dedup.length = 1
        · have hqual : qualifiesGroup minC (k, e :: es') = true := by
            simp only [qualifiesGroup, Bool.and_eq_true, decide_eq_true_eq]
            exact ⟨hq, hd⟩
          cases hce : e.corrected with
          | none =>
            exact absurd hce
              (hok (k, e :: es') (List.mem_cons_self _ _) e (List.mem_cons_self _ _))
          | some a =>
            simp only [genRulesLoop]
            rw [if_pos hq, if_pos hd, hce, ih (n + 1) hrest,
              List.filter_cons, if_pos hqual]
            simp only [Option.map, specRulesForGroups, hce, Option.getD]
        · have hqual : ¬(qualifiesGroup minC (k, e :: es') = true) := by
            simp only [qualifiesGroup, Bool.and_eq_true, decide_eq_true_eq]
            exact fun h => hd h.2
          simp only [genRulesLoop]
          rw [if_pos hq, if_neg hd, List.filter_cons, if_neg hqual]
          exact ih n hrest
    · have hqual : ¬(qualifiesGroup minC (k, es) = true) := by
        simp only [qualifiesGroup, Bool.and_eq_true, decide_eq_true_eq]
        exact fun h => hq h.1
      simp only [genRulesLoop]
      rw [if_neg hq, List.filter_cons, if_neg hqual]
      exact ih n hrest

theorem specRulesForGroups_length (suffixAt : Nat → Str) :
    ∀ (gs : List (Str × List PatternEntry)) (n : Nat),
      (∀ g ∈ gs, g.2 ≠ []) →
      (specRulesForGroups suffixAt n gs).length = gs.length := by
  intro gs
  induction gs with
  | nil => intro n _; rfl
  | cons g rest ih =>
    intro n hne
    rcases g with ⟨k, es⟩
    cases es with
    | nil => exact absurd rfl (hne (k, []) (List.mem_cons_self _ _))
    | cons e es' =>
      simp only [specRulesForGroups, List.length_cons]
      rw [ih (n + 1) (fun g hg => hne g (List.mem_cons_of_mem _ hg))]

theorem specRulesForGroups_mem (suffixAt : Nat → Str) :
    ∀ (gs : List (Str × List PatternEntry)) (n : Nat) (r : Rule),
      r ∈ specRulesForGroups suffixAt n gs → r.source = autoS ∧ r.confidence = 9/10 := by
  intro gs
  induction gs with
  | nil => intro n r hr; cases hr
  | cons g rest ih =>
    intro n r hr
    rcases g with ⟨k, es⟩
    cases es with
    | nil => exact ih n r hr
    | cons e es' =>
      rcases List.mem_cons.mp hr with rfl | hr'
      · exact ⟨rfl, rfl⟩
      · exact ih (n + 1) r hr'

/-- Claim C6 as amended: over the feedback rows visible through the default
pagination window (the first 100), `analyze_feedback_and_generate_rules`
groups `modify` feedback by the `"{peer}|{item}|{category}"` key of the
feedback's transaction and emits exactly one new rule per group whose size
reaches `min_occurrences` with all corrected accounts identical —
disagreeing or undersized groups emit nothing — each generated rule having
`source="auto"` and confidence 0.9 (assuming each grouped feedback carries
a corrected account, since a `None` corrected account would make the rule
insert raise). -/
theorem c6_grouped_rule_generation (txdb : List Tx) (fbdb : List FbRow)
    (minC : Nat) (suffixAt : Nat → Str)
    (hok : ∀ ke ∈ modifyEntries txdb (listAll fbdb 0 100), ke.2.corrected ≠ none) :
    ∃ out, analyzeFeedbackAndGenerateRules txdb fbdb minC suffixAt = some out ∧
      out = specRulesForGroups suffixAt 0
        ((groupByKey (modifyEntries txdb (listAll fbdb 0 100))).filter
          (qualifiesGroup minC)) ∧
      out.length = (groupByKey (modifyEntries txdb (listAll fbdb 0 100))).countP
        (qualifiesGroup minC) ∧
      ∀ r ∈ out, r.source = autoS ∧ r.confidence = 9/10 := by
  have hgok : ∀ g ∈ groupByKey (modifyEntries txdb (listAll fbdb 0 100)),
      ∀ e ∈ g.2, e.corrected ≠ none := by
    intro g hg e he
    exact hok (g.1, e) (groupByKey_entries _ g hg e he)
  refine ⟨_, genRulesLoop_eq_spec suffixAt minC _ 0 hgok, rfl, ?_, ?_⟩
  · rw [specRulesForGroups_length suffixAt _ 0 (filter_qual_nonempty minC _),
      List.countP_eq_length_filter]
  · intro r hr
    exact specRulesForGroups_mem suffixAt _ 0 r hr

/-- Transaction referenced by the C6 example feedback. -/
def ctxTx : Tx := ⟨"t1".toList, "Starbucks".toList, "Latte".toList, "Coffee".toList⟩

/-- A modify feedback correcting `ctxTx` to "Expenses:Food:Dining". -/
def cModFb (n : Nat) : FbRow :=
  ⟨n, "t1".toList, some "Expenses:Misc".toList,
   some "Expenses:Food:Dining".toList, modifyS⟩

/-- An accept feedback used as pagination filler. -/
def cAcceptFb : FbRow := ⟨0, "t1".toList, none, none, acceptS⟩

/-- A feedback history of 103 rows whose 3 agreeing modify rows sit beyond
the first 100. -/
def cLongFbdb : List FbRow := List.replicate 100 cAcceptFb ++ [cModFb 1, cModFb 2, cModFb 3]

/-- Counterexample to claim C6: this feedback history contains an agreeing
modify group of size 3 (meeting `min_occurrences = 3`), yet zero rules are
generated, because the analysis only reads the first 100 feedback rows. -/
theorem c6_counterexample :
    (cLongFbdb.filter (fun f => f.action == modifyS)).length = 3 ∧
    analyzeFeedbackAndGenerateRules [ctxTx] cLongFbdb 3 (fun _ => "abcdef".toList) =
      some [] :=
  ⟨by decide, by rfl⟩

/-- A short feedback history: three agreeing modify rows. -/
def cShortFbdb : List FbRow := [cModFb 1, cModFb 2, cModFb 3]

/-- Witness for C6: three agreeing modify feedbacks within the window and
`min_occurrences = 3` generate exactly one rule. -/
theorem c6_witness :
    (∀ ke ∈ modifyEntries [ctxTx] (listAll cShortFbdb 0 100), ke.2.corrected ≠ none) ∧
    ∃ out, analyzeFeedbackAndGenerateRules [ctxTx] cShortFbdb 3
        (fun _ => "abcdef".toList) = some out ∧ out.length = 1 :=
  ⟨by decide, by
    rcases c6_grouped_rule_generation [ctxTx] cShortFbdb 3 (fun _ => "abcdef".toList)
      (by decide) with ⟨out, h1, _, h3, _⟩
    exact ⟨out, h1, by rw [h3]; decide⟩⟩

end BeancountPilot
